import Mathlib

/-!
Verification of the Question transformation library in `src/nested.ts`.

The library is a set of pure functions over sequences of `Question`
records.  We give two embeddings:

* a value-semantics embedding (`Nested` namespace), where `Question`
  holds its `options` list directly; object spreads and array copies of
  the source are identities here, so each function is translated to the
  corresponding list transformation;
* a reference-semantics embedding (`NestedRef` namespace), where each
  `Question` holds a reference (an index) into a heap of string lists,
  so that aliasing of the `options` array between inputs and outputs is
  observable.  JavaScript array literals and spreads allocate fresh
  cells; `filter` passes records through with their references intact.
-/

namespace Nested

/-- Modelled from the spec: the variant tag of a question.  The file
`src/interfaces/question.ts` that declares it is not part of the sources;
the spec fixes it as a closed enumeration of exactly these two variants. -/
inductive QuestionType where
  | multiple_choice_question
  | short_answer_question
deriving DecidableEq, Repr, BEq

/-- Modelled from the spec: the `Question` record of
`src/interfaces/question.ts` (not part of the sources), with the fields
and field types listed in the data-model section of the spec.
JavaScript numbers are integral here per the spec, so `id` and `points`
are embedded as `Int`. -/
structure Question where
  id : Int
  name : String
  type : QuestionType
  body : String
  expected : String
  options : List String
  points : Int
  published : Bool
deriving DecidableEq, Repr

/-- JavaScript `Array.prototype.join`: elements separated by the
separator, empty array gives the empty string. -/
def joinSep (sep : String) : List String → String
  | [] => ""
  | [x] => x
  | x :: y :: xs => x ++ sep ++ joinSep sep (y :: xs)

/-- Source function `getPublishedQuestions` of `src/nested.ts`: filter on `published`,
then map an object spread with a fresh copy of `options` (the copy is an
identity in value semantics). -/
def getPublishedQuestions (questions : List Question) : List Question :=
  (questions.filter (fun q => q.published)).map
    (fun q => { q with options := q.options })

/-- Source function `findQuestion` of `src/nested.ts`: `find` on matching `id`;
`undefined` becomes `null` (here `none`), a hit is returned as a spread
copy. -/
def findQuestion (questions : List Question) (id : Int) : Option Question :=
  match questions.find? (fun q => q.id == id) with
  | none => none
  | some toFind => some { toFind with options := toFind.options }

/-- Source function `sumPoints` of `src/nested.ts`: `reduce` with accumulator starting
at 0, adding `points` of every question. -/
def sumPoints (questions : List Question) : Int :=
  questions.foldl (fun total q => total + q.points) 0

/-- Source function `sumPublishedPoints` of `src/nested.ts`: `reduce` with accumulator
starting at 0, adding `points` only when `published` holds. -/
def sumPublishedPoints (questions : List Question) : Int :=
  questions.foldl
    (fun total q => if q.published then total + q.points else total) 0

/-- Source function `toCSV` of `src/nested.ts`.  The source maps each question to an
array of five strings and calls `.join` with a newline on the resulting
`string[][]`; JavaScript `join` stringifies each inner array, which
comma-joins its elements, so the net effect is comma-joined fields on
newline-joined rows.  JavaScript `String` on a boolean yields the
literal tokens rendered by `toString` on `Bool`. -/
def toCSV (questions : List Question) : String :=
  let r1 : String := joinSep "," ["id", "name", "options", "points", "published"] ++ "\n"
  let csv : String := joinSep "\n"
    (questions.map (fun q =>
      joinSep "," [toString q.id, q.name, toString q.options.length,
        toString q.points, toString q.published]))
  r1 ++ csv

/-- Source function `publishAll` of `src/nested.ts`: map a spread copy with
`published` forced to `true`. -/
def publishAll (questions : List Question) : List Question :=
  questions.map (fun q => { q with options := q.options, published := true })

/-- Source function `sameType` of `src/nested.ts`: `every` on the first variant, or
`every` on the second variant. -/
def sameType (questions : List Question) : Bool :=
  questions.all (fun q => q.type == QuestionType.multiple_choice_question) ||
    questions.all (fun q => q.type == QuestionType.short_answer_question)

/-- Source function `changeQuestionTypeById` of `src/nested.ts`: map; on the entry
matching `targetId`, spread-copy with `type` set to the new type, then
clear `options` when the resulting type is the short-answer variant;
other entries are spread-copied unchanged. -/
def changeQuestionTypeById (questions : List Question) (targetId : Int)
    (newQuestionType : QuestionType) : List Question :=
  questions.map (fun q =>
    if targetId == q.id then
      let ret : Question := { q with options := q.options, type := newQuestionType }
      if ret.type == QuestionType.short_answer_question then
        { ret with options := [] }
      else ret
    else { q with options := q.options })

/-- JavaScript `Array.prototype.splice(start, deleteCount, ...items)`
restricted to string arrays: the start index is clamped into the array
(negative values count from the end, floored at 0), `deleteCount`
elements from the clamped start are dropped and the items inserted in
their place. -/
def jsSplice (l : List String) (start : Int) (deleteCount : Nat)
    (items : List String) : List String :=
  let len : Nat := l.length
  let actualStart : Nat :=
    if start < 0 then ((len : Int) + start).toNat else min start.toNat len
  l.take actualStart ++ items ++ l.drop (actualStart + deleteCount)

/-- Source function `editOption` of `src/nested.ts`: map; on the entry matching
`targetId`, spread-copy, then `splice(options.length, 0, newOption)`
when the index is -1 (an append), else `splice(targetOptionIndex, 1,
newOption)`; other entries are spread-copied unchanged. -/
def editOption (questions : List Question) (targetId : Int)
    (targetOptionIndex : Int) (newOption : String) : List Question :=
  questions.map (fun q =>
    if targetId == q.id then
      let ret : Question := { q with options := q.options }
      if targetOptionIndex == -1 then
        { ret with options := jsSplice ret.options (ret.options.length : Int) 0 [newOption] }
      else
        { ret with options := jsSplice ret.options targetOptionIndex 1 [newOption] }
    else { q with options := q.options })

/-- Source function `duplicateQuestionInArray` of `src/nested.ts`: `flatMap`; the
entry matching `targetId` is emitted as a spread copy followed by a
spread copy with `id` replaced by `newId` and `name` prefixed with
"Copy of "; other entries are emitted as spread copies. -/
def duplicateQuestionInArray (questions : List Question) (targetId : Int)
    (newId : Int) : List Question :=
  questions.flatMap (fun q =>
    if q.id == targetId then
      [{ q with options := q.options },
       { q with options := q.options, id := newId, name := "Copy of " ++ q.name }]
    else [{ q with options := q.options }])

/-! Specification-side definitions, written from the words of the spec
and of the claims, to be compared with the source embeddings above. -/

/-- Spec wording for one CSV record: the id, name, number of options,
points and published flag of the question, comma-separated, with the
boolean rendered as the literal tokens. -/
def csvLineSpec (q : Question) : String :=
  toString q.id ++ "," ++ q.name ++ "," ++ toString q.options.length ++ ","
    ++ toString q.points ++ "," ++ (if q.published then "true" else "false")

/-- Spec wording for the data rows: one line per question in order,
newline-joined, with no trailing newline after the last record. -/
def csvRowsSpec : List Question → String
  | [] => ""
  | [q] => csvLineSpec q
  | q :: q2 :: rest => csvLineSpec q ++ "\n" ++ csvRowsSpec (q2 :: rest)

/-- Spec wording for `toCSV`: the header line followed by a newline and
then the data rows. -/
def toCSVSpec (questions : List Question) : String :=
  "id,name,options,points,published\n" ++ csvRowsSpec questions

/-- Spec wording for `changeQuestionTypeById`: same length and order;
the entry with the target id has `type` set to the new type, and its
`options` cleared exactly when the new type is not the multiple-choice
variant; entries with a different id are unchanged. -/
def changeQuestionTypeByIdSpec (questions : List Question) (targetId : Int)
    (newType : QuestionType) : List Question :=
  questions.map (fun q =>
    if q.id = targetId then
      if newType ≠ QuestionType.multiple_choice_question then
        { q with type := newType, options := [] }
      else { q with type := newType }
    else q)

/-- Replacement of the element at a given position of a string list. -/
def replaceAt (l : List String) (i : Nat) (v : String) : List String :=
  l.take i ++ [v] ++ l.drop (i + 1)

/-- Claim wording for the edit of the `options` list of the target
entry: index -1 and any index at or beyond the length append the new
option at the end; a negative index other than -1 replaces the element
at position `max(length + index, 0)`; an in-range index replaces the
element at that position. -/
def editOptionsSpec (opts : List String) (idx : Int) (newOption : String) :
    List String :=
  if idx = -1 ∨ (opts.length : Int) ≤ idx then opts ++ [newOption]
  else if idx < 0 then replaceAt opts ((opts.length : Int) + idx).toNat newOption
  else replaceAt opts idx.toNat newOption

/-- Claim wording for `editOption`: every entry is preserved in order;
the entries with the target id get their `options` edited as described
by `editOptionsSpec`; the rest are unchanged. -/
def editOptionSpec (questions : List Question) (targetId : Int) (idx : Int)
    (newOption : String) : List Question :=
  questions.map (fun q =>
    if q.id = targetId then { q with options := editOptionsSpec q.options idx newOption }
    else q)

/-- Claim wording for `duplicateQuestionInArray`: every entry is passed
through in order, and each entry matching the target id is emitted
unchanged and immediately followed by a duplicate differing only in its
id, set to the new id, and its name, prefixed with "Copy of ". -/
def duplicateSpec : List Question → Int → Int → List Question
  | [], _, _ => []
  | q :: rest, targetId, newId =>
    if q.id = targetId then
      q :: { q with id := newId, name := "Copy of " ++ q.name }
        :: duplicateSpec rest targetId newId
    else q :: duplicateSpec rest targetId newId

end Nested

namespace NestedRef

/-- A heap of `options` arrays: cell `r` of the heap holds the string
array that reference `r` points at. -/
abbrev Heap : Type := List (List String)

/-- Reading the array a reference points at. -/
def Heap.read (h : Heap) (r : Nat) : List String :=
  List.getD h r []

/-- Allocating a fresh array cell; returns the extended heap and the
fresh reference. -/
def Heap.allocate (h : Heap) (v : List String) : Heap × Nat :=
  (h ++ [v], h.length)

/-- In-place mutation of the array a reference points at. -/
def Heap.write (h : Heap) (r : Nat) (v : List String) : Heap :=
  List.set h r v

/-- Record type for a question under reference semantics: `optionsRef` is the
reference of its `options` array in the heap; the other fields are
values. -/
structure QuestionR where
  id : Int
  name : String
  type : Nested.QuestionType
  body : String
  expected : String
  optionsRef : Nat
  points : Int
  published : Bool
deriving DecidableEq, Repr

/-- The map step shared by the copying functions of `src/nested.ts`:
each question is rebuilt by an object spread whose `options` is the
array literal `[...q.options]`, which allocates a fresh cell holding a
copy of the pointed-at array; `f` is the rest of the spread (identity,
or a scalar field update such as forcing `published`). -/
def mapCopy (f : QuestionR → QuestionR) : Heap → List QuestionR → Heap × List QuestionR
  | h, [] => (h, [])
  | h, q :: rest =>
    let p := Heap.allocate h (Heap.read h q.optionsRef)
    let r := mapCopy f p.1 rest
    (r.1, f { q with optionsRef := p.2 } :: r.2)

/-- JavaScript `String.prototype.trim`: drop whitespace characters from
both ends of the string. -/
def jsTrim (s : String) : String :=
  ⟨(((s.data.dropWhile Char.isWhitespace).reverse.dropWhile
    Char.isWhitespace).reverse)⟩

/-- Source function `getNonEmptyQuestions` of `src/nested.ts` under reference
semantics: a plain `filter`, so the returned records are the input
records themselves, `optionsRef` included — no copy is made. -/
def getNonEmptyQuestions (h : Heap) (questions : List QuestionR) : List QuestionR :=
  questions.filter (fun q =>
    jsTrim q.body != "" || decide ((Heap.read h q.optionsRef).length > 0)
      || jsTrim q.expected != "")

/-- Source function `getPublishedQuestions` of `src/nested.ts` under reference
semantics: filter on `published`, then the copying map. -/
def getPublishedQuestions (h : Heap) (questions : List QuestionR) :
    Heap × List QuestionR :=
  mapCopy (fun q => q) h (questions.filter (fun q => q.published))

/-- Source function `removeQuestion` of `src/nested.ts` under reference semantics:
filter out the matching id, then the copying map. -/
def removeQuestion (h : Heap) (questions : List QuestionR) (id : Int) :
    Heap × List QuestionR :=
  mapCopy (fun q => q) h (questions.filter (fun q => q.id != id))

/-- Source function `publishAll` of `src/nested.ts` under reference semantics: the
copying map with `published` forced to `true`. -/
def publishAll (h : Heap) (questions : List QuestionR) : Heap × List QuestionR :=
  mapCopy (fun q => { q with published := true }) h questions

/-- Source function `renameQuestionById` of `src/nested.ts` under
reference semantics: the copying map, with `name` replaced on the
entries matching `targetId`. -/
def renameQuestionById (h : Heap) (questions : List QuestionR)
    (targetId : Int) (newName : String) : Heap × List QuestionR :=
  mapCopy (fun q => if targetId == q.id then { q with name := newName } else q)
    h questions

/-- Source function `findQuestion` of `src/nested.ts` under reference
semantics: `find` allocates nothing; a miss returns the heap untouched,
and a hit is returned as a spread copy with a fresh `options` cell. -/
def findQuestion (h : Heap) (questions : List QuestionR) (id : Int) :
    Heap × Option QuestionR :=
  match questions.find? (fun q => q.id == id) with
  | none => (h, none)
  | some toFind =>
    let p := Heap.allocate h (Heap.read h toFind.optionsRef)
    (p.1, some { toFind with optionsRef := p.2 })

/-- Modelled from the spec: `makeBlankQuestion` of `src/objects.ts`,
which is not part of the sources; per the spec it produces a question
with empty `body`, `expected` and `options`, zero `points` and
`published` false.  Under reference semantics its empty `options` array
literal is a freshly allocated cell. -/
def makeBlankQuestion (h : Heap) (id : Int) (name : String)
    (t : Nested.QuestionType) : Heap × QuestionR :=
  let p := Heap.allocate h []
  (p.1, { id := id, name := name, type := t, body := "", expected := "",
          optionsRef := p.2, points := 0, published := false })

/-- Source function `addNewQuestion` of `src/nested.ts` under reference
semantics: the copying map over all entries, with a newly made blank
question appended at the end. -/
def addNewQuestion (h : Heap) (questions : List QuestionR) (id : Int)
    (name : String) (t : Nested.QuestionType) : Heap × List QuestionR :=
  let d := mapCopy (fun q => q) h questions
  let b := makeBlankQuestion d.1 id name t
  (b.1, d.2 ++ [b.2])

/-- Generalisation of the per-entry step of the `map`- and
`flatMap`-shaped functions of `src/nested.ts`: each input question
yields some output questions and may extend or update the heap, and the
outputs of all entries are concatenated in order. -/
def mapStep (step : Heap → QuestionR → Heap × List QuestionR) :
    Heap → List QuestionR → Heap × List QuestionR
  | h, [] => (h, [])
  | h, q :: rest =>
    let p := step h q
    let r := mapStep step p.1 rest
    (r.1, p.2 ++ r.2)

/-- Per-entry step of `changeQuestionTypeById` of `src/nested.ts` under
reference semantics: the target entry is spread-copied into a fresh
cell with `type` replaced, and when the resulting type is the
short-answer variant its `options` is rebound to a fresh empty array
literal; other entries are spread-copied. -/
def changeStep (targetId : Int) (newQuestionType : Nested.QuestionType)
    (h : Heap) (q : QuestionR) : Heap × List QuestionR :=
  if targetId == q.id then
    let p := Heap.allocate h (Heap.read h q.optionsRef)
    let ret : QuestionR := { q with optionsRef := p.2, type := newQuestionType }
    if ret.type == Nested.QuestionType.short_answer_question then
      let p2 := Heap.allocate p.1 []
      (p2.1, [{ ret with optionsRef := p2.2 }])
    else (p.1, [ret])
  else
    let p := Heap.allocate h (Heap.read h q.optionsRef)
    (p.1, [{ q with optionsRef := p.2 }])

/-- Source function `changeQuestionTypeById` of `src/nested.ts` under
reference semantics: the map of its per-entry step. -/
def changeQuestionTypeById (h : Heap) (questions : List QuestionR)
    (targetId : Int) (newQuestionType : Nested.QuestionType) :
    Heap × List QuestionR :=
  mapStep (changeStep targetId newQuestionType) h questions

/-- Per-entry step of `editOption` of `src/nested.ts` under reference
semantics: the target entry is spread-copied into a fresh cell, which
`splice` then mutates in place; other entries are spread-copied. -/
def editStep (targetId targetOptionIndex : Int) (newOption : String)
    (h : Heap) (q : QuestionR) : Heap × List QuestionR :=
  if targetId == q.id then
    let p := Heap.allocate h (Heap.read h q.optionsRef)
    let ret : QuestionR := { q with optionsRef := p.2 }
    let opts := Heap.read p.1 ret.optionsRef
    if targetOptionIndex == -1 then
      (Heap.write p.1 ret.optionsRef
        (Nested.jsSplice opts (opts.length : Int) 0 [newOption]), [ret])
    else
      (Heap.write p.1 ret.optionsRef
        (Nested.jsSplice opts targetOptionIndex 1 [newOption]), [ret])
  else
    let p := Heap.allocate h (Heap.read h q.optionsRef)
    (p.1, [{ q with optionsRef := p.2 }])

/-- Source function `editOption` of `src/nested.ts` under reference
semantics: the map of its per-entry step. -/
def editOption (h : Heap) (questions : List QuestionR)
    (targetId targetOptionIndex : Int) (newOption : String) :
    Heap × List QuestionR :=
  mapStep (editStep targetId targetOptionIndex newOption) h questions

/-- Per-entry step of `duplicateQuestionInArray` of `src/nested.ts`
under reference semantics: the entry matching `targetId` is emitted as
two spread copies, each with its own fresh cell, the second with `id`
and `name` replaced; other entries are spread-copied. -/
def dupStep (targetId newId : Int) (h : Heap) (q : QuestionR) :
    Heap × List QuestionR :=
  if q.id == targetId then
    let p1 := Heap.allocate h (Heap.read h q.optionsRef)
    let p2 := Heap.allocate p1.1 (Heap.read p1.1 q.optionsRef)
    (p2.1, [{ q with optionsRef := p1.2 },
            { q with optionsRef := p2.2, id := newId, name := "Copy of " ++ q.name }])
  else
    let p := Heap.allocate h (Heap.read h q.optionsRef)
    (p.1, [{ q with optionsRef := p.2 }])

/-- Source function `duplicateQuestionInArray` of `src/nested.ts` under
reference semantics: the map of its per-entry step. -/
def duplicateQuestionInArray (h : Heap) (questions : List QuestionR)
    (targetId newId : Int) : Heap × List QuestionR :=
  mapStep (dupStep targetId newId) h questions

/-- Non-aliasing of one result against the inputs: writing the
`options` array of any output question changes the `options` read back
by no input question stored in the initial heap. -/
def PreservesInputOptions (h : Heap) (qs : List QuestionR)
    (result : Heap × List QuestionR) : Prop :=
  ∀ q2 ∈ result.2, ∀ q ∈ qs, q.optionsRef < h.length →
    ∀ v : List String,
      Heap.read (Heap.write result.1 q2.optionsRef v) q.optionsRef
        = Heap.read h q.optionsRef

/-- Locality of a per-entry step: it preserves the readable content of
the initial heap, never shrinks the heap, and only hands out references
at or past the initial end. -/
def StepLocal (step : Heap → QuestionR → Heap × List QuestionR) : Prop :=
  ∀ (h : Heap) (q : QuestionR),
    (∀ r, r < h.length → Heap.read (step h q).1 r = Heap.read h r) ∧
    h.length ≤ (step h q).1.length ∧
    (∀ q2 ∈ (step h q).2, h.length ≤ q2.optionsRef)

end NestedRef

namespace Nested

/-! Helper lemmas shared by the claim theorems. -/

/-- The object spread with a copied `options` array is the identity in
value semantics. -/
lemma copy_eq (q : Question) : ({ q with options := q.options } : Question) = q := rfl

/-- The derived boolean equality on `QuestionType` agrees with
propositional equality. -/
lemma qtype_beq_iff (a b : QuestionType) : (a == b) = true ↔ a = b := by
  cases a <;> cases b <;> decide

lemma getPublishedQuestions_eq_filter (qs : List Question) :
    getPublishedQuestions qs = qs.filter (fun q => q.published) := by
  unfold getPublishedQuestions
  rw [show (fun q : Question => { q with options := q.options }) = id from
    funext fun q => copy_eq q]
  exact List.map_id _

end Nested

namespace Nested

/-- Claim C6: `getPublishedQuestions` returns a subsequence of its input, in
the same relative order, consisting of exactly the entries with
`published = true`; every returned element is published and the result
is no longer than the input. -/
theorem getPublishedQuestions_spec (qs : List Question) :
    List.Sublist (getPublishedQuestions qs) qs ∧
    getPublishedQuestions qs = qs.filter (fun q => q.published) ∧
    (∀ q ∈ getPublishedQuestions qs, q.published = true) ∧
    (getPublishedQuestions qs).length ≤ qs.length := by
  have hf := getPublishedQuestions_eq_filter qs
  refine ⟨?_, hf, ?_, ?_⟩
  · rw [hf]; exact List.filter_sublist qs
  · intro q hq
    rw [hf] at hq
    exact (List.mem_filter.mp hq).2
  · rw [hf]
    exact (List.filter_sublist qs).length_le

/-- A concrete published question used to instantiate witnesses. -/
def qPub : Question :=
  { id := 1, name := "A", type := QuestionType.multiple_choice_question,
    body := "b", expected := "e", options := ["x"], points := 2, published := true }

theorem getPublishedQuestions_spec_witness :
    qPub ∈ getPublishedQuestions [qPub] ∧ qPub.published = true := by
  have hmem : qPub ∈ getPublishedQuestions [qPub] := by decide
  exact ⟨hmem, (getPublishedQuestions_spec [qPub]).2.2.1 qPub hmem⟩

/-- Claim C7: `sameType` is true exactly when all entries share one of the two
variants, and it is true on the empty sequence. -/
theorem sameType_iff :
    (∀ qs : List Question, (sameType qs = true ↔
      (∀ q ∈ qs, q.type = QuestionType.multiple_choice_question) ∨
      (∀ q ∈ qs, q.type = QuestionType.short_answer_question))) ∧
    sameType [] = true := by
  refine ⟨fun qs => ?_, rfl⟩
  unfold sameType
  simp [List.all_eq_true, qtype_beq_iff]

theorem sameType_iff_witness :
    (∀ q ∈ [qPub], q.type = QuestionType.multiple_choice_question) ∨
    (∀ q ∈ [qPub], q.type = QuestionType.short_answer_question) :=
  (sameType_iff.1 [qPub]).mp (by decide)

/-- A fold whose step is additive in the accumulator can have the
accumulator pulled out. -/
lemma foldl_shift (step : Int → Question → Int)
    (hstep : ∀ a b q, step (a + b) q = a + step b q) :
    ∀ (qs : List Question) (a b : Int),
      qs.foldl step (a + b) = a + qs.foldl step b := by
  intro qs
  induction qs with
  | nil => intro a b; rfl
  | cons q rest ih =>
    intro a b
    simp only [List.foldl_cons, hstep, ih]

lemma sumPoints_cons (q : Question) (qs : List Question) :
    sumPoints (q :: qs) = q.points + sumPoints qs := by
  unfold sumPoints
  simp only [List.foldl_cons]
  have := foldl_shift (fun t q2 => t + q2.points)
    (fun a b q2 => by dsimp only; omega) qs q.points 0
  simpa using this

lemma sumPublishedPoints_cons (q : Question) (qs : List Question) :
    sumPublishedPoints (q :: qs)
      = (if q.published then q.points else 0) + sumPublishedPoints qs := by
  unfold sumPublishedPoints
  simp only [List.foldl_cons]
  have h0 : (if q.published then (0 : Int) + q.points else 0)
      = (if q.published then q.points else 0) + 0 := by split <;> omega
  rw [h0]
  exact foldl_shift (fun t q2 => if q2.published then t + q2.points else t)
    (fun a b q2 => by dsimp only; split <;> omega)
    qs (if q.published then q.points else 0) 0

/-- Claim C8: when every entry has non-negative `points`, the sum over the
published entries is at most the sum over all entries; both sums are 0
on the empty sequence. -/
theorem sumPoints_ge_sumPublishedPoints :
    (∀ qs : List Question, (∀ q ∈ qs, 0 ≤ q.points) →
      sumPublishedPoints qs ≤ sumPoints qs) ∧
    sumPoints [] = 0 ∧ sumPublishedPoints [] = 0 := by
  refine ⟨fun qs => ?_, rfl, rfl⟩
  induction qs with
  | nil => intro _; exact le_refl 0
  | cons q rest ih =>
    intro hpos
    have hq : 0 ≤ q.points := hpos q (List.mem_cons_self q rest)
    have hrest := ih (fun q2 hq2 => hpos q2 (List.mem_cons_of_mem q hq2))
    rw [sumPoints_cons, sumPublishedPoints_cons]
    split <;> omega

theorem sumPoints_ge_sumPublishedPoints_witness :
    sumPublishedPoints [qPub] ≤ sumPoints [qPub] :=
  sumPoints_ge_sumPublishedPoints.1 [qPub] (by decide)

lemma findQuestion_eq_find (qs : List Question) (i : Int) :
    findQuestion qs i = qs.find? (fun q => q.id == i) := by
  unfold findQuestion
  cases h : qs.find? (fun q => q.id == i) <;> simp [copy_eq]

/-- Claim C4: `findQuestion` returns `none` exactly when no entry has the
requested id, and any returned question is the first entry with that id:
it occurs in the input at a position before which no entry matches. -/
theorem findQuestion_spec (qs : List Question) (i : Int) :
    (findQuestion qs i = none ↔ ∀ q ∈ qs, q.id ≠ i) ∧
    (∀ q2, findQuestion qs i = some q2 →
      q2.id = i ∧ ∃ l1 l2, qs = l1 ++ q2 :: l2 ∧ ∀ q ∈ l1, q.id ≠ i) := by
  rw [findQuestion_eq_find]
  constructor
  · rw [List.find?_eq_none]
    simp
  · induction qs with
    | nil => intro q2 h; cases h
    | cons q rest ih =>
      intro q2 h
      by_cases hq : q.id = i
      · have hb : (q.id == i) = true := by simpa using hq
        simp only [List.find?_cons, hb] at h
        injection h with hqq
        subst hqq
        exact ⟨hq, [], rest, rfl, by intro q3 h3; cases h3⟩
      · have hb : (q.id == i) = false := by simp [hq]
        simp only [List.find?_cons, hb] at h
        obtain ⟨hid, l1, l2, hsplit, hfirst⟩ := ih q2 h
        refine ⟨hid, q :: l1, l2, by rw [hsplit]; rfl, ?_⟩
        intro q3 h3
        rcases List.mem_cons.mp h3 with h3 | h3
        · rw [h3]; exact hq
        · exact hfirst q3 h3

theorem findQuestion_spec_witness :
    findQuestion [qPub] 1 = some qPub ∧ qPub.id = 1 := by
  have h : findQuestion [qPub] 1 = some qPub := by decide
  exact ⟨h, ((findQuestion_spec [qPub] 1).2 qPub h).1⟩

lemma duplicateSpec_no_match :
    ∀ (qs : List Question) (t n : Int), (∀ q ∈ qs, q.id ≠ t) →
      duplicateSpec qs t n = qs := by
  intro qs
  induction qs with
  | nil => intro t n _; rfl
  | cons q rest ih =>
    intro t n hno
    unfold duplicateSpec
    rw [if_neg (hno q (List.mem_cons_self q rest))]
    rw [ih t n (fun q2 h2 => hno q2 (List.mem_cons_of_mem q h2))]

/-- Claim C5: `duplicateQuestionInArray` passes every entry through in order,
emitting after each entry matching the target id a duplicate that
differs only in its id, set to the new id, and its name, prefixed with
"Copy of "; when nothing matches, the output equals the input. -/
theorem duplicateQuestionInArray_meets_spec :
    (∀ (qs : List Question) (t n : Int),
      duplicateQuestionInArray qs t n = duplicateSpec qs t n) ∧
    (∀ (qs : List Question) (t n : Int), (∀ q ∈ qs, q.id ≠ t) →
      duplicateQuestionInArray qs t n = qs) := by
  have hmain : ∀ (qs : List Question) (t n : Int),
      duplicateQuestionInArray qs t n = duplicateSpec qs t n := by
    intro qs t n
    induction qs with
    | nil => rfl
    | cons q rest ih =>
      unfold duplicateQuestionInArray at ih ⊢
      unfold duplicateSpec
      rw [List.flatMap_cons, ih]
      by_cases hq : q.id = t
      · rw [if_pos hq]
        have hb : (q.id == t) = true := by simpa using hq
        rw [hb]
        simp only [copy_eq]
        rfl
      · rw [if_neg hq]
        have hb : (q.id == t) = false := by simp [hq]
        rw [hb]
        simp only [copy_eq]
        rfl

  exact ⟨hmain, fun qs t n hno => by
    rw [hmain qs t n]; exact duplicateSpec_no_match qs t n hno⟩

theorem duplicateQuestionInArray_meets_spec_witness :
    duplicateQuestionInArray [qPub] 5 9 = [qPub] :=
  duplicateQuestionInArray_meets_spec.2 [qPub] 5 9 (by decide)

/-- The rendering of a boolean by `toString` agrees with the literal
tokens of the spec. -/
lemma bool_toString (b : Bool) : toString b = if b then "true" else "false" := by
  cases b <;> rfl

lemma csvLine_eq (q : Question) :
    joinSep "," [toString q.id, q.name, toString q.options.length,
      toString q.points, toString q.published] = csvLineSpec q := by
  simp only [joinSep, csvLineSpec, bool_toString, String.append_assoc]

lemma csvRows_eq (qs : List Question) :
    joinSep "\n" (qs.map (fun q =>
      joinSep "," [toString q.id, q.name, toString q.options.length,
        toString q.points, toString q.published])) = csvRowsSpec qs := by
  induction qs with
  | nil => rfl
  | cons q rest ih =>
    cases rest with
    | nil =>
      simp only [List.map_cons, List.map_nil, joinSep, csvRowsSpec, csvLineSpec,
        bool_toString, String.append_assoc]
    | cons q2 rest2 =>
      simp only [List.map_cons] at ih ⊢
      simp only [joinSep, csvRowsSpec] at ih ⊢
      rw [← ih]
      simp only [csvLineSpec, bool_toString, String.append_assoc]

/-- The concrete question of the CSV example in the spec; the fields the
example leaves unspecified are immaterial to `toCSV`. -/
def additionQuestion : Question :=
  { id := 1, name := "Addition", type := QuestionType.multiple_choice_question,
    body := "", expected := "", options := [], points := 1, published := true }

/-- Claim C2: `toCSV` produces the header line, a newline, and one
comma-separated record per question in order, newline-joined with no
trailing newline; on the empty sequence it is exactly the header line
with its newline, and on the Addition example it matches the spec
verbatim. -/
theorem toCSV_meets_spec :
    (∀ qs : List Question, toCSV qs = toCSVSpec qs) ∧
    toCSV [] = "id,name,options,points,published\n" ∧
    toCSV [additionQuestion] = "id,name,options,points,published\n1,Addition,0,1,true" := by
  refine ⟨fun qs => ?_, by decide, by decide⟩
  unfold toCSV toCSVSpec
  rw [csvRows_eq]
  congr 1

/-- Claim C3: `changeQuestionTypeById` agrees with the spec wording: on the
target entries `type` is replaced, with `options` cleared exactly when
the new type is not the multiple-choice variant; other entries and the
order are untouched. -/
theorem changeQuestionTypeById_meets_spec (qs : List Question) (t : Int)
    (nt : QuestionType) :
    changeQuestionTypeById qs t nt = changeQuestionTypeByIdSpec qs t nt := by
  unfold changeQuestionTypeById changeQuestionTypeByIdSpec
  refine congrArg (fun f => List.map f qs) (funext fun q => ?_)
  by_cases hq : q.id = t
  · have hb : (t == q.id) = true := by simpa using hq.symm
    rw [if_pos hb, if_pos hq]
    cases nt <;> rfl
  · have hb : (t == q.id) = false := by
      simp only [beq_eq_false_iff_ne]
      exact fun h => hq h.symm
    rw [if_neg (by simp [hb]), if_neg hq]

/-- Claim C9: `publishAll` is idempotent: applying it twice yields the same
sequence, field for field, as applying it once. -/
theorem publishAll_idempotent (qs : List Question) :
    publishAll (publishAll qs) = publishAll qs := by
  unfold publishAll
  rw [List.map_map]
  rfl

/-- The two splice calls of the source agree, for every integer index,
with the edit described in the claim: clamping appends when the index is
-1 or at least the length, and replaces at `max(length + index, 0)` for
other negative indices and at the index itself otherwise. -/
lemma editOptions_eq (l : List String) (idx : Int) (o : String) :
    (if idx == -1 then jsSplice l (l.length : Int) 0 [o] else jsSplice l idx 1 [o])
      = editOptionsSpec l idx o := by
  simp only [jsSplice, editOptionsSpec, replaceAt]
  by_cases h1 : idx = -1
  · have hb : (idx == -1) = true := by simpa using h1
    rw [if_pos (by simp [hb]), if_pos (Or.inl h1)]
    rw [if_neg (show ¬ ((l.length : Int) < 0) by omega)]
    rw [show min (l.length : Int).toNat l.length = l.length by omega]
    simp
  · have hb : (idx == -1) = false := by simp [h1]
    rw [if_neg (by simp [hb])]
    by_cases h2 : (l.length : Int) ≤ idx
    · rw [if_pos (Or.inr h2)]
      rw [if_neg (show ¬ (idx < 0) by omega)]
      rw [show min idx.toNat l.length = l.length by omega]
      rw [List.take_length, List.drop_eq_nil_of_le (by omega)]
      simp
    · rw [if_neg (show ¬ (idx = -1 ∨ (l.length : Int) ≤ idx) by omega)]
      by_cases h5 : idx < 0
      · rw [if_pos h5, if_pos h5]
      · rw [if_neg h5, if_neg h5]
        rw [show min idx.toNat l.length = idx.toNat by omega]

/-- Claim C10: `editOption` is total over every integer index and agrees with
the claim everywhere: on the target entries an index of -1 or at or
beyond the length of `options` appends the new option, a negative index
other than -1 replaces the element at position
`max(length + index, 0)`, an in-range index replaces in place, and all
other entries pass through unchanged. -/
theorem editOption_total_meets_spec (qs : List Question) (t idx : Int)
    (o : String) : editOption qs t idx o = editOptionSpec qs t idx o := by
  unfold editOption editOptionSpec
  refine congrArg (fun f => List.map f qs) (funext fun q => ?_)
  by_cases hq : q.id = t
  · have hb : (t == q.id) = true := by simpa using hq.symm
    rw [if_pos (by simp [hb]), if_pos hq]
    dsimp only
    rw [← editOptions_eq q.options idx o]
    by_cases h1 : idx = -1
    · have hb1 : (idx == -1) = true := by simpa using h1
      rw [if_pos (by simp [hb1]), if_pos (by simp [hb1])]
    · have hb1 : (idx == -1) = false := by simp [h1]
      rw [if_neg (by simp [hb1]), if_neg (by simp [hb1])]
  · have hb : (t == q.id) = false := by
      simp only [beq_eq_false_iff_ne]
      exact fun h => hq h.symm
    rw [if_neg (by simp [hb]), if_neg hq]

end Nested

namespace NestedRef

/-! Aliasing lemmas for the reference-semantics model. -/

lemma read_write_ne (h : Heap) (r r2 : Nat) (v : List String) (hne : r ≠ r2) :
    Heap.read (Heap.write h r v) r2 = Heap.read h r2 := by
  simp [Heap.read, Heap.write, List.getElem?_set_ne hne]

lemma read_append_left (h t : Heap) (r : Nat) (hr : r < h.length) :
    Heap.read (h ++ t) r = Heap.read h r := by
  simp [Heap.read, List.getElem?_append_left hr]

/-- The copying map leaves every cell of the initial heap unchanged: it
only allocates past its end. -/
lemma mapCopy_read (f : QuestionR → QuestionR) :
    ∀ (qs : List QuestionR) (h : Heap) (r : Nat), r < h.length →
      Heap.read (mapCopy f h qs).1 r = Heap.read h r := by
  intro qs
  induction qs with
  | nil => intro h r hr; rfl
  | cons q rest ih =>
    intro h r hr
    show Heap.read (mapCopy f (h ++ [Heap.read h q.optionsRef]) rest).1 r
      = Heap.read h r
    rw [ih (h ++ [Heap.read h q.optionsRef]) r
      (by simpa using Nat.lt_succ_of_lt hr)]
    exact read_append_left h [Heap.read h q.optionsRef] r hr

/-- Every question returned by the copying map carries a reference
allocated after the initial heap. -/
lemma mapCopy_fresh (f : QuestionR → QuestionR)
    (hf : ∀ q, (f q).optionsRef = q.optionsRef) :
    ∀ (qs : List QuestionR) (h : Heap) (q2 : QuestionR),
      q2 ∈ (mapCopy f h qs).2 → h.length ≤ q2.optionsRef := by
  intro qs
  induction qs with
  | nil => intro h q2 hmem; cases hmem
  | cons q rest ih =>
    intro h q2 hmem
    rcases List.mem_cons.mp hmem with he | hm
    · rw [he, hf]
      exact Nat.le_refl _
    · have := ih (h ++ [Heap.read h q.optionsRef]) q2 hm
      simp only [List.length_append, List.length_cons, List.length_nil] at this
      omega

/-- The copying map never shrinks the heap. -/
lemma mapCopy_length (f : QuestionR → QuestionR) :
    ∀ (qs : List QuestionR) (h : Heap),
      h.length ≤ (mapCopy f h qs).1.length := by
  intro qs
  induction qs with
  | nil => intro h; exact Nat.le_refl _
  | cons q rest ih =>
    intro h
    show h.length ≤ (mapCopy f (h ++ [Heap.read h q.optionsRef]) rest).1.length
    refine Nat.le_trans ?_ (ih (h ++ [Heap.read h q.optionsRef]))
    simp

/-- Freshness of all output references together with preservation of
the initial heap give non-aliasing. -/
lemma preserves_of_fresh (h : Heap) (qs : List QuestionR)
    (result : Heap × List QuestionR)
    (hfresh : ∀ q2 ∈ result.2, h.length ≤ q2.optionsRef)
    (hpres : ∀ r, r < h.length → Heap.read result.1 r = Heap.read h r) :
    PreservesInputOptions h qs result := by
  intro q2 h2 q _ hlt v
  have hf := hfresh q2 h2
  rw [read_write_ne _ _ _ _ (by omega)]
  exact hpres _ hlt

/-- A step-mapped function leaves every cell of the initial heap
readable unchanged when its step is local. -/
lemma mapStep_read (step : Heap → QuestionR → Heap × List QuestionR)
    (hs : StepLocal step) :
    ∀ (qs : List QuestionR) (h : Heap) (r : Nat), r < h.length →
      Heap.read (mapStep step h qs).1 r = Heap.read h r := by
  intro qs
  induction qs with
  | nil => intro h r hr; rfl
  | cons q rest ih =>
    intro h r hr
    show Heap.read (mapStep step (step h q).1 rest).1 r = Heap.read h r
    rw [ih (step h q).1 r (Nat.lt_of_lt_of_le hr (hs h q).2.1)]
    exact (hs h q).1 r hr

/-- Every question returned by a step-mapped function carries a
reference at or past the initial heap end, when the step is local. -/
lemma mapStep_fresh (step : Heap → QuestionR → Heap × List QuestionR)
    (hs : StepLocal step) :
    ∀ (qs : List QuestionR) (h : Heap) (q2 : QuestionR),
      q2 ∈ (mapStep step h qs).2 → h.length ≤ q2.optionsRef := by
  intro qs
  induction qs with
  | nil => intro h q2 hmem; cases hmem
  | cons q rest ih =>
    intro h q2 hmem
    have hmem2 : q2 ∈ (step h q).2 ++ (mapStep step (step h q).1 rest).2 := hmem
    rcases List.mem_append.mp hmem2 with hm | hm
    · exact (hs h q).2.2 q2 hm
    · exact Nat.le_trans (hs h q).2.1 (ih (step h q).1 q2 hm)

/-- The copying map preserves the options of the input questions. -/
lemma mapCopy_preserves (f : QuestionR → QuestionR)
    (hf : ∀ q, (f q).optionsRef = q.optionsRef)
    (h : Heap) (qs qs2 : List QuestionR) :
    PreservesInputOptions h qs (mapCopy f h qs2) :=
  preserves_of_fresh h qs (mapCopy f h qs2)
    (fun q2 h2 => mapCopy_fresh f hf qs2 h q2 h2)
    (fun r hr => mapCopy_read f qs2 h r hr)

/-- A step-mapped function with a local step preserves the options of
the input questions. -/
lemma mapStep_preserves (step : Heap → QuestionR → Heap × List QuestionR)
    (hs : StepLocal step) (h : Heap) (qs qs2 : List QuestionR) :
    PreservesInputOptions h qs (mapStep step h qs2) :=
  preserves_of_fresh h qs (mapStep step h qs2)
    (fun q2 h2 => mapStep_fresh step hs qs2 h q2 h2)
    (fun r hr => mapStep_read step hs qs2 h r hr)

/-- The per-entry step of `changeQuestionTypeById` is local. -/
lemma changeStep_local (targetId : Int) (nt : Nested.QuestionType) :
    StepLocal (changeStep targetId nt) := by
  intro h q
  unfold changeStep
  by_cases hc : (targetId == q.id) = true
  · rw [if_pos hc]
    dsimp only [Heap.allocate]
    by_cases hnt : (nt == Nested.QuestionType.short_answer_question) = true
    · rw [if_pos hnt]
      refine ⟨?_, ?_, ?_⟩
      · intro r hr
        rw [read_append_left _ _ _ (by simp; omega),
          read_append_left _ _ _ hr]
      · simp
      · intro q2 hq2
        rw [List.mem_singleton] at hq2
        subst hq2
        simp
    · rw [if_neg hnt]
      refine ⟨?_, ?_, ?_⟩
      · intro r hr
        exact read_append_left _ _ _ hr
      · simp
      · intro q2 hq2
        rw [List.mem_singleton] at hq2
        subst hq2
        simp
  · rw [if_neg hc]
    dsimp only [Heap.allocate]
    refine ⟨?_, ?_, ?_⟩
    · intro r hr
      exact read_append_left _ _ _ hr
    · simp
    · intro q2 hq2
      rw [List.mem_singleton] at hq2
      subst hq2
      simp

/-- The per-entry step of `editOption` is local: the splice writes only
into the freshly allocated copy. -/
lemma editStep_local (targetId targetOptionIndex : Int) (newOption : String) :
    StepLocal (editStep targetId targetOptionIndex newOption) := by
  intro h q
  unfold editStep
  by_cases hc : (targetId == q.id) = true
  · rw [if_pos hc]
    dsimp only [Heap.allocate]
    by_cases hidx : (targetOptionIndex == -1) = true
    · rw [if_pos hidx]
      refine ⟨?_, ?_, ?_⟩
      · intro r hr
        rw [read_write_ne _ _ _ _ (by omega), read_append_left _ _ _ hr]
      · simp [Heap.write]
      · intro q2 hq2
        rw [List.mem_singleton] at hq2
        subst hq2
        simp
    · rw [if_neg hidx]
      refine ⟨?_, ?_, ?_⟩
      · intro r hr
        rw [read_write_ne _ _ _ _ (by omega), read_append_left _ _ _ hr]
      · simp [Heap.write]
      · intro q2 hq2
        rw [List.mem_singleton] at hq2
        subst hq2
        simp
  · rw [if_neg hc]
    dsimp only [Heap.allocate]
    refine ⟨?_, ?_, ?_⟩
    · intro r hr
      exact read_append_left _ _ _ hr
    · simp
    · intro q2 hq2
      rw [List.mem_singleton] at hq2
      subst hq2
      simp

/-- The per-entry step of `duplicateQuestionInArray` is local. -/
lemma dupStep_local (targetId newId : Int) :
    StepLocal (dupStep targetId newId) := by
  intro h q
  unfold dupStep
  by_cases hc : (q.id == targetId) = true
  · rw [if_pos hc]
    dsimp only [Heap.allocate]
    refine ⟨?_, ?_, ?_⟩
    · intro r hr
      rw [read_append_left _ _ _ (by simp; omega), read_append_left _ _ _ hr]
    · simp
    · intro q2 hq2
      rcases List.mem_cons.mp hq2 with he | hq2
      · subst he; simp
      · rw [List.mem_singleton] at hq2
        subst hq2
        simp
  · rw [if_neg hc]
    dsimp only [Heap.allocate]
    refine ⟨?_, ?_, ?_⟩
    · intro r hr
      exact read_append_left _ _ _ hr
    · simp
    · intro q2 hq2
      rw [List.mem_singleton] at hq2
      subst hq2
      simp

/-- A found question holds a fresh cell, so writing its options leaves
every cell of the initial heap readable unchanged. -/
lemma findQuestion_no_alias (h : Heap) (qs : List QuestionR) (i : Int) :
    ∀ q2, (findQuestion h qs i).2 = some q2 → ∀ r, r < h.length →
      ∀ v : List String,
      Heap.read (Heap.write (findQuestion h qs i).1 q2.optionsRef v) r
        = Heap.read h r := by
  unfold findQuestion
  cases hfind : List.find? (fun q3 => q3.id == i) qs with
  | none =>
    intro q2 hq2
    exact Option.noConfusion hq2
  | some tf =>
    intro q2 hq2 r hr v
    dsimp only [Heap.allocate] at hq2 ⊢
    injection hq2 with hq2
    subst hq2
    dsimp only
    rw [read_write_ne _ _ _ _ (by omega)]
    exact read_append_left _ _ _ hr

/-- The blank question appended by `addNewQuestion` also holds a fresh
cell, so the whole result preserves the options of the inputs. -/
lemma addNewQuestion_preserves (h : Heap) (qs : List QuestionR) (i : Int)
    (nm : String) (t : Nested.QuestionType) :
    PreservesInputOptions h qs (addNewQuestion h qs i nm t) := by
  apply preserves_of_fresh
  · intro q2 hq2
    have hq3 : q2 ∈ (mapCopy (fun q3 => q3) h qs).2
        ++ [(makeBlankQuestion (mapCopy (fun q3 => q3) h qs).1 i nm t).2] := hq2
    rcases List.mem_append.mp hq3 with hm | hm
    · exact mapCopy_fresh _ (fun _ => rfl) qs h q2 hm
    · rw [List.mem_singleton] at hm
      subst hm
      show h.length
        ≤ (makeBlankQuestion (mapCopy (fun q3 => q3) h qs).1 i nm t).2.optionsRef
      dsimp only [makeBlankQuestion, Heap.allocate]
      exact mapCopy_length _ qs h
  · intro r hr
    show Heap.read (makeBlankQuestion (mapCopy (fun q3 => q3) h qs).1 i nm t).1 r
      = Heap.read h r
    dsimp only [makeBlankQuestion, Heap.allocate]
    rw [read_append_left _ _ _ (Nat.lt_of_lt_of_le hr (mapCopy_length _ qs h))]
    exact mapCopy_read _ qs h r hr

/-- Claim C1 as amended: every library function that returns rebuilt
Question records — `getPublishedQuestions`, `removeQuestion`,
`publishAll`, `renameQuestionById`, `addNewQuestion`,
`changeQuestionTypeById`, `editOption`, `duplicateQuestionInArray`, and
`findQuestion` on a hit — hands out freshly allocated `options` arrays,
so mutating the `options` of any output question never changes the
`options` of any input question stored in the initial heap; the single
exception is `getNonEmptyQuestions`, refuted separately. -/
theorem copying_functions_never_alias_input (h : Heap) (qs : List QuestionR)
    (i targetId newId targetOptionIndex : Int)
    (newOption newName blankName : String) (nt : Nested.QuestionType) :
    PreservesInputOptions h qs (getPublishedQuestions h qs) ∧
    PreservesInputOptions h qs (removeQuestion h qs i) ∧
    PreservesInputOptions h qs (publishAll h qs) ∧
    PreservesInputOptions h qs (renameQuestionById h qs targetId newName) ∧
    PreservesInputOptions h qs (addNewQuestion h qs newId blankName nt) ∧
    PreservesInputOptions h qs (changeQuestionTypeById h qs targetId nt) ∧
    PreservesInputOptions h qs
      (editOption h qs targetId targetOptionIndex newOption) ∧
    PreservesInputOptions h qs (duplicateQuestionInArray h qs targetId newId) ∧
    (∀ q2, (findQuestion h qs i).2 = some q2 → ∀ q ∈ qs,
      q.optionsRef < h.length → ∀ v : List String,
      Heap.read (Heap.write (findQuestion h qs i).1 q2.optionsRef v)
        q.optionsRef = Heap.read h q.optionsRef) := by
  refine ⟨?_, ?_, ?_, ?_, ?_, ?_, ?_, ?_, ?_⟩
  · exact mapCopy_preserves (fun q3 => q3) (fun _ => rfl) h qs
      (qs.filter (fun q3 => q3.published))
  · exact mapCopy_preserves (fun q3 => q3) (fun _ => rfl) h qs
      (qs.filter (fun q3 => q3.id != i))
  · exact mapCopy_preserves (fun q3 => { q3 with published := true })
      (fun _ => rfl) h qs qs
  · exact mapCopy_preserves
      (fun q3 => if targetId == q3.id then { q3 with name := newName } else q3)
      (fun q3 => by by_cases hb : (targetId == q3.id) = true <;> simp [hb])
      h qs qs
  · exact addNewQuestion_preserves h qs newId blankName nt
  · exact mapStep_preserves _ (changeStep_local targetId nt) h qs qs
  · exact mapStep_preserves _
      (editStep_local targetId targetOptionIndex newOption) h qs qs
  · exact mapStep_preserves _ (dupStep_local targetId newId) h qs qs
  · intro q2 hq2 q _ hlt v
    exact findQuestion_no_alias h qs i q2 hq2 q.optionsRef hlt v

/-- A one-cell heap whose only array is nonempty. -/
def hEx : Heap := [["a"]]

/-- A question pointing at cell 0 of `hEx`, with blank `body` and
`expected` so that only its nonempty `options` keeps it non-empty. -/
def qEx : QuestionR :=
  { id := 1, name := "N", type := Nested.QuestionType.multiple_choice_question,
    body := "", expected := "", optionsRef := 0, points := 1, published := true }

theorem copying_functions_never_alias_input_witness :
    Heap.read (Heap.write (getPublishedQuestions hEx [qEx]).1 1 ["x"]) 0
      = ["a"] := by
  have h := (copying_functions_never_alias_input hEx [qEx] 0 0 0 0
    "o" "n" "b" Nested.QuestionType.multiple_choice_question).1
    { qEx with optionsRef := 1 } (by decide) qEx (by decide) (by decide) ["x"]
  simpa using h

/-- Claim C1 as stated is false for `getNonEmptyQuestions`: it returns the
input records themselves, so the returned question shares its
`optionsRef` with the input, and writing the options of the output
changes what the input question reads back. -/
theorem getNonEmptyQuestions_aliasing :
    getNonEmptyQuestions hEx [qEx] = [qEx] ∧
    (List.getD (getNonEmptyQuestions hEx [qEx]) 0 qEx).optionsRef
      = qEx.optionsRef ∧
    Heap.read hEx qEx.optionsRef = ["a"] ∧
    Heap.read
      (Heap.write hEx
        (List.getD (getNonEmptyQuestions hEx [qEx]) 0 qEx).optionsRef
        ["mutated"])
      qEx.optionsRef = ["mutated"] := by
  refine ⟨by decide, by decide, by decide, by decide⟩

end NestedRef
